import Mathlib

/-!
Verification of the core numeric utilities of the yolov8_pose repository
(`src/utils/util.py`) against its natural-language specification.

Tensors of rational entries model the floating-point tensors of the source;
every tensor operation is translated pointwise from the Python code.  The two
transcendental ingredients of the source (`torch.atan` inside `compute_iou`,
and the real exponents `alpha`, `beta` of the assigner's `pow`) cannot be
expressed inside ℚ, so they enter the embedding as explicit function
parameters; every theorem quantifies over them, hence holds in particular for
the actual arctangent and power functions.
-/

/-- A box in corner form `(x1, y1, x2, y2)`; the same record is reused for the
center form `(cx, cy, w, h)` exactly as the source reuses one 4-column array
for both layouts. -/
structure Box where
  x1 : ℚ
  y1 : ℚ
  x2 : ℚ
  y2 : ℚ
deriving DecidableEq, Repr

/-- `xy2wh` from `src/utils/util.py`: corner form to center form.  The source
first copies its input and then writes the four slots from the original
values, so it is a pure elementwise map. -/
def xy2wh (b : Box) : Box :=
  { x1 := (b.x1 + b.x2) / 2  -- x center
    y1 := (b.y1 + b.y2) / 2  -- y center
    x2 := b.x2 - b.x1        -- width
    y2 := b.y2 - b.y1 }      -- height

/-- `wh2xy` from `src/utils/util.py`: center form to corner form, likewise a
pure elementwise map over a fresh copy. -/
def wh2xy (b : Box) : Box :=
  { x1 := b.x1 - b.x2 / 2    -- top left x
    y1 := b.y1 - b.y2 / 2    -- top left y
    x2 := b.x1 + b.x2 / 2    -- bottom right x
    y2 := b.y1 + b.y2 / 2 }  -- bottom right y

/-- Elementwise `torch.min`, written out with an `if` so that the kernel can
evaluate it on concrete rationals. -/
def qmin (a b : ℚ) : ℚ := if a ≤ b then a else b

/-- Elementwise `torch.max`, written out with an `if` so that the kernel can
evaluate it on concrete rationals. -/
def qmax (a b : ℚ) : ℚ := if a ≤ b then b else a

/-- `Tensor.clamp(0)` on one entry. -/
def clamp0 (q : ℚ) : ℚ := qmax q 0

/-- `compute_iou` from `src/utils/util.py` (a CIoU, despite its name).
`f` models `torch.atan` and `cpi` models the constant `4 / math.pi ** 2`;
both are irrational, so they are parameters of the embedding and every
theorem below quantifies over them.  `eps` is the `eps=1e-7` argument. -/
def computeIou (f : ℚ → ℚ) (cpi eps : ℚ) (b1 b2 : Box) : ℚ :=
  let w1 := b1.x2 - b1.x1
  let h1 := b1.y2 - b1.y1 + eps
  let w2 := b2.x2 - b2.x1
  let h2 := b2.y2 - b2.y1 + eps
  -- intersection area
  let inter := clamp0 (qmin b1.x2 b2.x2 - qmax b1.x1 b2.x1) *
               clamp0 (qmin b1.y2 b2.y2 - qmax b1.y1 b2.y1)
  -- union area
  let uni := w1 * h1 + w2 * h2 - inter + eps
  let iou := inter / uni
  let cw := qmax b1.x2 b2.x2 - qmin b1.x1 b2.x1  -- convex width
  let ch := qmax b1.y2 b2.y2 - qmin b1.y1 b2.y1  -- convex height
  let c2 := cw ^ 2 + ch ^ 2 + eps              -- convex diagonal squared
  let rho2 := ((b2.x1 + b2.x2 - b1.x1 - b1.x2) ^ 2 +
               (b2.y1 + b2.y2 - b1.y1 - b1.y2) ^ 2) / 4  -- center dist ** 2
  let v := cpi * (f (w2 / h2) - f (w1 / h1)) ^ 2
  let alpha := v / (v - iou + (1 + eps))
  iou - (rho2 / c2 + v * alpha)  -- CIoU

/-- The default `eps = 1e-7` of `compute_iou`. -/
def iouEps : ℚ := 1 / 10000000

/-- The unit box used in the counterexample to the claim
`compute_iou(A, A) == 1`. -/
def boxU : Box := ⟨0, 0, 1, 1⟩

/-- A disjoint translate of `boxU` (same width and height, shifted right by
2), used in the counterexample to `compute_iou` of disjoint boxes being 0.
Because its aspect ratio equals `boxU`'s, the `torch.atan` terms of
`compute_iou` cancel on this pair for every model of `atan`. -/
def boxV : Box := ⟨2, 0, 3, 1⟩

/- ------------------------------------------------------------------ -/
/- non_max_suppression -/
/- ------------------------------------------------------------------ -/

/-- One detection row produced inside `non_max_suppression`: corner-form box,
confidence, class index (stored as a float, like `j.float()` in the source),
and the trailing `nm` mask/keypoint channels. -/
structure Det where
  box : Box
  conf : ℚ
  cls : ℚ
  mask : List ℚ
deriving DecidableEq, Repr

/-- `Tensor.amax` over a dimension, as a fold over the entries (0 on an empty
list, which the source never hits because `nc ≥ 1`). -/
def listMax : List ℚ → ℚ
  | [] => 0
  | x :: xs => xs.foldl qmax x

/-- Index of the first maximal entry, the index part of `Tensor.max(dim)`. -/
def listArgmaxAux (m : ℚ) (best i : ℕ) : List ℚ → ℕ
  | [] => best
  | v :: t => if m < v then listArgmaxAux v i (i + 1) t else listArgmaxAux m best (i + 1) t

/-- Index part of `cls.max(1)`; `0` for the empty list. -/
def listArgmax : List ℚ → ℕ
  | [] => 0
  | x :: t => listArgmaxAux x 0 1 t

/-- The `nc` class scores of one prediction row (columns `4 .. 4+nc`). -/
def rowScores (nc : ℕ) (r : List ℚ) : List ℚ := (r.drop 4).take nc

/-- The trailing `nm` mask channels of one prediction row. -/
def rowMask (nc : ℕ) (r : List ℚ) : List ℚ := r.drop (4 + nc)

/-- The box of one prediction row, converted from center form to corner form
by `wh2xy` exactly as in the source. -/
def rowBox (r : List ℚ) : Box := wh2xy ⟨r.getD 0 0, r.getD 1 0, r.getD 2 0, r.getD 3 0⟩

/-- The candidate mask `xc`: the row's best class score strictly exceeds the
confidence threshold. -/
def xcPass (confT : ℚ) (nc : ℕ) (r : List ℚ) : Bool :=
  decide (confT < listMax (rowScores nc r))

/-- The detection rows entering the batched NMS for one image: confidence
filtering by `xc`, then either multi-label expansion (`nc > 1`: one row per
(candidate, class) pair above the threshold) or best-class selection with the
duplicated confidence filter (`else` branch of the source). -/
def detsOf (confT : ℚ) (nc : ℕ) (rows : List (List ℚ)) : List Det :=
  let cand := rows.filter (xcPass confT nc)
  if 1 < nc then
    cand.flatMap (fun r =>
      (List.range nc).filterMap (fun j =>
        let s := (rowScores nc r).getD j 0
        if confT < s then some ⟨rowBox r, s, (j : ℚ), rowMask nc r⟩ else none))
  else
    (cand.map (fun r => (⟨rowBox r, listMax (rowScores nc r),
        (listArgmax (rowScores nc r) : ℚ), rowMask nc r⟩ : Det))).filter
      (fun d => decide (confT < d.conf))

/-- Descending-confidence order used by `x[:, 4].argsort(descending=True)`
(numeric order on the confidence; tie order in the source's sort is
implementation defined, this embedding fixes a stable one). -/
def confGe (a b : Det) : Prop := b.conf ≤ a.conf

instance : DecidableRel confGe := fun a b => inferInstanceAs (Decidable (b.conf ≤ a.conf))

instance : IsTotal Det confGe := ⟨fun a b => le_total b.conf a.conf⟩

instance : IsTrans Det confGe := ⟨fun _ _ _ h1 h2 => le_trans h2 h1⟩

/-- The class-offset trick `c = x[:, 5:6] * max_wh`: all four box coordinates
shifted by `cls * 7680`. -/
def offsetBox (d : Det) : Box :=
  ⟨d.box.x1 + d.cls * 7680, d.box.y1 + d.cls * 7680,
   d.box.x2 + d.cls * 7680, d.box.y2 + d.cls * 7680⟩

/-- Modelled from the spec: the plain pairwise IoU (intersection over union)
used by the external `torchvision.ops.nms`, whose code is not part of this
repository; spec §4.3 step 6 describes the greedy IoU-based suppression it
performs. -/
def boxIou (b1 b2 : Box) : ℚ :=
  let inter := clamp0 (qmin b1.x2 b2.x2 - qmax b1.x1 b2.x1) *
               clamp0 (qmin b1.y2 b2.y2 - qmax b1.y1 b2.y1)
  inter / ((b1.x2 - b1.x1) * (b1.y2 - b1.y1) + (b2.x2 - b2.x1) * (b2.y2 - b2.y1) - inter)

/-- Modelled from the spec: greedy suppression of `torchvision.ops.nms`
(highest-confidence box wins, any remaining box with IoU above the threshold
against a kept box is discarded), scanning the already confidence-sorted
candidate list; `kept` accumulates the boxes kept so far. -/
def nmsGreedy (iouT : ℚ) : List Det → List Det → List Det
  | _, [] => []
  | kept, d :: rest =>
    if kept.all (fun k => decide (boxIou (offsetBox k) (offsetBox d) ≤ iouT)) then
      d :: nmsGreedy iouT (kept ++ [d]) rest
    else
      nmsGreedy iouT kept rest

/-- `non_max_suppression` for one image of the batch (the body of the loop in
the source): candidate filtering, class selection, sort by confidence with
the `max_nms = 30000` truncation, class-offset greedy NMS, and the
`max_det = 300` truncation. -/
def nmsImage (confT iouT : ℚ) (nc : ℕ) (rows : List (List ℚ)) : List Det :=
  let pool := (List.insertionSort confGe (detsOf confT nc rows)).take 30000
  (nmsGreedy iouT [] pool).take 300

/-- A kept detection as one output row: box, confidence, class, mask —
`6 + nm` columns. -/
def detRow (d : Det) : List ℚ :=
  [d.box.x1, d.box.y1, d.box.x2, d.box.y2, d.conf, d.cls] ++ d.mask

/-- `nc = nc or (outputs.shape[1] - 4)` of the source (`nc = 0` models a
falsy argument). -/
def ncEffective (d1 nc : ℕ) : ℕ := if nc = 0 then d1 - 4 else nc

/-- `nm = outputs.shape[1] - nc - 4`, the number of mask channels. -/
def nmCols (d1 nc : ℕ) : ℕ := d1 - ncEffective d1 nc - 4

/-- The batch loop of `non_max_suppression`.  Each output entry carries its
column count (the width of the `torch.zeros((0, 6 + nm))` placeholder) next
to its rows.  `processed` is the number of images handled before the
wall-clock budget `0.5 + 0.05 * bs` ran out: the loop breaks after the
assignment, so the remaining images keep their zero-row placeholder —
quantifying over `processed` covers every possible timing. -/
def nmsBatchGo (confT iouT : ℚ) (d1 nc : ℕ) : ℕ → List (List (List ℚ)) → List (ℕ × List (List ℚ))
  | _, [] => []
  | 0, _ :: rest => (6 + nmCols d1 nc, []) :: nmsBatchGo confT iouT d1 nc 0 rest
  | Nat.succ p, img :: rest =>
    (6 + nmCols d1 nc, (nmsImage confT iouT (ncEffective d1 nc) img).map detRow) ::
      nmsBatchGo confT iouT d1 nc p rest

/-- `non_max_suppression` over a batch: one entry per batch image. -/
def nonMaxSuppression (confT iouT : ℚ) (d1 nc processed : ℕ)
    (batch : List (List (List ℚ))) : List (ℕ × List (List ℚ)) :=
  nmsBatchGo confT iouT d1 nc processed batch

/-- A single two-class prediction row (center-form box `(5,5,4,4)`, class
scores `0.9` and `0.8`, no mask channels) on which multi-label expansion
makes NMS return more detections than there are confidence-passing
candidates. -/
def nmsRow2 : List ℚ := [5, 5, 4, 4, 9 / 10, 4 / 5]

/-- A single-class prediction row with one mask channel, used as witness
input. -/
def nmsRow1 : List ℚ := [5, 5, 4, 4, 9 / 10, 0]

/- ------------------------------------------------------------------ -/
/- compute_metric -/
/- ------------------------------------------------------------------ -/

/-- One ground-truth row of `compute_metric`'s `target` argument:
class label (column 0) and corner-form box (columns 1..5). -/
structure GtRow where
  cls : ℚ
  box : Box
deriving DecidableEq, Repr

/-- One row of the `matches` array of `compute_metric`:
`[label index, detection index, iou]`. -/
structure MRow where
  gt : ℕ
  det : ℕ
  sim : ℚ
deriving DecidableEq, Repr

/-- The box-IoU of `compute_metric` (`else` branch): intersection over
`area1 + area2 - intersection + 1e-7`, target box first. -/
def metricIou (t o : Box) : ℚ :=
  let inter := clamp0 (qmin t.x2 o.x2 - qmax t.x1 o.x1) *
               clamp0 (qmin t.y2 o.y2 - qmax t.y1 o.y1)
  inter / ((t.x2 - t.x1) * (t.y2 - t.y1) + (o.x2 - o.x1) * (o.y2 - o.y1) - inter
    + 1 / 10000000)

/-- `torch.where((iou >= iou_v[i]) & (target[:, 0:1] == output[:, 5]))`:
the candidate `(label, detection, iou)` rows, in the row-major order
`torch.where` returns them. -/
def matchCandidates (target : List GtRow) (output : List Det) (thr : ℚ) : List MRow :=
  (List.range target.length).flatMap (fun i =>
    (List.range output.length).filterMap (fun j =>
      let t := target.getD i ⟨0, ⟨0, 0, 0, 0⟩⟩
      let o := output.getD j ⟨⟨0, 0, 0, 0⟩, 0, 0, []⟩
      let s := metricIou t.box o.box
      if thr ≤ s ∧ t.cls = o.cls then some ⟨i, j, s⟩ else none))

/-- Decreasing-similarity order of `matches[matches[:, 2].argsort()[::-1]]`
(tie order of numpy's unstable argsort is implementation defined; this
embedding fixes a stable one). -/
def simGe (a b : MRow) : Prop := b.sim ≤ a.sim

instance : DecidableRel simGe := fun a b => inferInstanceAs (Decidable (b.sim ≤ a.sim))

instance : IsTotal MRow simGe := ⟨fun a b => le_total b.sim a.sim⟩

instance : IsTrans MRow simGe := ⟨fun _ _ _ h1 h2 => le_trans h2 h1⟩

/-- `matches[numpy.unique(matches[:, k], return_index=True)[1]]`: for each
distinct key value in ascending order, the first row of `rows` carrying that
key.  This reproduces both numpy.unique's first-occurrence selection and its
reordering of the surviving rows by ascending key value. -/
def dedupByKey (key : MRow → ℕ) (rows : List MRow) : List MRow :=
  (((rows.map key).dedup).insertionSort (· ≤ ·)).filterMap
    (fun v => rows.find? (fun r => key r == v))

/-- The accepted matches of `compute_metric` at one threshold: candidates,
and — only when there are at least two of them, as in the source's
`if x[0].shape[0] > 1` — similarity sort followed by detection-column and
then label-column deduplication. -/
def acceptedMatches (target : List GtRow) (output : List Det) (thr : ℚ) : List MRow :=
  let c := matchCandidates target output thr
  if c.length ≤ 1 then c
  else dedupByKey (fun r => r.gt) (dedupByKey (fun r => r.det)
    (List.insertionSort simGe c))

/-- `compute_metric`'s returned `correct` matrix: one row per detection, one
column per threshold; `True` iff the detection appears in an accepted
match at that threshold. -/
def computeMetric (target : List GtRow) (output : List Det) (iouv : List ℚ) :
    List (List Bool) :=
  (List.range output.length).map (fun j =>
    iouv.map (fun thr => (acceptedMatches target output thr).any (fun m => m.det == j)))

/-- Ground truth of the C4 counterexample: one instance of class 0 with box
`(0,0,10,10)`. -/
def exGt : List GtRow := [⟨0, ⟨0, 0, 10, 10⟩⟩]

/-- Detections of the C4 counterexample: detection 0 overlaps the ground
truth with IoU ≈ 0.6, detection 1 with IoU ≈ 0.9, both class 0. -/
def exDets : List Det := [⟨⟨0, 0, 10, 6⟩, 9 / 10, 0, []⟩, ⟨⟨0, 0, 10, 9⟩, 4 / 5, 0, []⟩]

/- ------------------------------------------------------------------ -/
/- compute_ap -/
/- ------------------------------------------------------------------ -/

/-- `numpy.cumsum`, with running accumulator. -/
def cumsumGo (acc : ℚ) : List ℚ → List ℚ
  | [] => []
  | x :: t => (acc + x) :: cumsumGo (acc + x) t

/-- `numpy.cumsum(..., 0)` of one column. -/
def cumsum (l : List ℚ) : List ℚ := cumsumGo 0 l

/-- `numpy.flip(numpy.maximum.accumulate(numpy.flip(m_pre)))`: each entry
becomes the maximum of itself and everything after it (the precision
envelope). -/
def suffixMax : List ℚ → List ℚ
  | [] => []
  | a :: rest =>
    match suffixMax rest with
    | [] => [a]
    | b :: t => qmax a b :: b :: t

/-- `numpy.interp(x, xp, fp, left)` at one point, over the `(xp, fp)` pairs
of a strictly increasing `xp`: `left` below the first point, the last `fp`
at or beyond the last point, linear interpolation in between. -/
def interpPts (x left : ℚ) : List (ℚ × ℚ) → ℚ
  | [] => left
  | [(x0, f0)] => if x < x0 then left else f0
  | (x0, f0) :: (x1, f1) :: rest =>
    if x < x0 then left
    else if x < x1 then f0 + (f1 - f0) * (x - x0) / (x1 - x0)
    else interpPts x left ((x1, f1) :: rest)

/-- `numpy.trapz(y, x)`: the trapezoidal rule over sample points `x`. -/
def trapz : List ℚ → List ℚ → ℚ
  | y0 :: y1 :: ys, x0 :: x1 :: xs =>
    (x1 - x0) * (y0 + y1) / 2 + trapz (y1 :: ys) (x1 :: xs)
  | _, _ => 0

/-- `numpy.linspace(0, 1, 101)` written as an ascending recursion:
`n` points starting at `k/100`. -/
def linspaceGo (k : ℕ) : ℕ → List ℚ
  | 0 => []
  | n + 1 => ((k : ℚ) / 100) :: linspaceGo (k + 1) n

/-- The fixed 101 COCO sample points `0, 0.01, ..., 1`. -/
def linspace101 : List ℚ := linspaceGo 0 101

/-- Column `j` of the true-positive matrix as 0/1 rationals. -/
def tpColumn (j : ℕ) (rows : List (List Bool)) : List ℚ :=
  rows.map (fun r => if r.getD j false then 1 else 0)

/-- The per-class body of `compute_ap`'s loop: for each threshold column,
accumulate TP/FP counts, build recall and precision curves, prepend/append
the sentinel points, apply the precision envelope, and integrate the
101-point trapezoidal rule.  `tpRows` are the class's true-positive rows
already sorted by descending confidence; `nl` is the class's ground-truth
count. -/
def apRow (nT : ℕ) (epsA nl : ℚ) (tpRows : List (List Bool)) : List ℚ :=
  (List.range nT).map (fun j =>
    let col := tpColumn j tpRows
    let tpc := cumsum col
    let fpc := cumsum (col.map (fun v => 1 - v))
    let recallCurve := tpc.map (fun v => v / (nl + epsA))
    let precisionCurve := (tpc.zip fpc).map (fun p => p.1 / (p.1 + p.2))
    let mrec := 0 :: recallCurve ++ [1]
    let mpre := suffixMax (1 :: precisionCurve ++ [0])
    trapz (linspace101.map (fun x => interpPts x (mpre.headD 0) (mrec.zip mpre)))
      linspace101)

/-- The `ap` matrix of `compute_ap` (one row per class present in
`target_cls` in ascending order, one column per threshold): sort by
descending confidence, then run the per-class accumulation; classes with no
detections or no labels keep their zero row.  `epsA` is the `eps=1e-16`
argument. -/
def computeApMatrix (nT : ℕ) (tp : List (List Bool)) (conf predCls targetCls : List ℚ)
    (epsA : ℚ) : List (List ℚ) :=
  let rows := tp.zip (conf.zip predCls)
  let sorted := rows.insertionSort (fun a b => b.2.1 ≤ a.2.1)
  let classes := (targetCls.dedup).insertionSort (· ≤ ·)
  classes.map (fun c =>
    let sel := sorted.filter (fun r => r.2.2 == c)
    let nl := targetCls.count c
    if sel.length = 0 ∨ nl = 0 then List.replicate nT 0
    else apRow nT epsA (nl : ℚ) (sel.map (fun r => r.1)))

/- ------------------------------------------------------------------ -/
/- BoxLoss.df_loss -/
/- ------------------------------------------------------------------ -/

/-- `Tensor.long()` on one entry: truncation toward zero (equal to the floor
for the nonnegative targets `df_loss` receives, since its caller clamps them
into `[0, dfl_ch - 0.01]`). -/
def toLong (q : ℚ) : ℤ := q.num.tdiv q.den

/-- `BoxLoss.df_loss` for one foreground anchor.  `ce` models
`torch.nn.functional.cross_entropy(..., reduction='none')` on one row of
logits and one integer class index; cross-entropy is transcendental
(log-sum-exp), so it is a parameter of the embedding and the theorems
quantify over it.  `pred` gives the `dfl_ch + 1` logits of each of the four
box edges, `target` the four continuous edge distances; the result is the
`.mean(-1)` over the four edges of `left_loss * wl + right_loss * wr`. -/
def dfLoss (nb : ℕ) (ce : (Fin nb → ℚ) → ℤ → ℚ) (pred : Fin 4 → Fin nb → ℚ)
    (target : Fin 4 → ℚ) : ℚ :=
  (∑ e : Fin 4,
    (ce (pred e) (toLong (target e)) * (((toLong (target e) + 1 : ℤ) : ℚ) - target e) +
     ce (pred e) (toLong (target e) + 1) *
       (1 - ((((toLong (target e) + 1 : ℤ) : ℚ)) - target e)))) / 4

/-- Witness target distances for C7: one fractional edge (3.3) and integer
edges. -/
def tgtW : Fin 4 → ℚ := ![33 / 10, 3, 0, 1]

/-- Witness cross-entropy model for C7 (any function of the right type
works, since the theorem quantifies over `ce`). -/
def ceW : (Fin 5 → ℚ) → ℤ → ℚ := fun _ k => (k : ℚ)

/-- Witness logits for C7. -/
def predW : Fin 4 → Fin 5 → ℚ := fun _ _ => 0

/- ------------------------------------------------------------------ -/
/- Assigner -/
/- ------------------------------------------------------------------ -/

/-- The configuration of `Assigner` (its `__init__` fields).  `powA` and
`powB` model `x ** alpha` and `x ** beta` — real powers, transcendental for
the fractional `alpha = 0.5` that `ComputeLoss` uses — and `atanF`/`cpi` are
the `compute_iou` parameters; the theorems quantify over all of them. -/
structure AssignerCfg where
  topK : ℕ
  powA : ℚ → ℚ
  powB : ℚ → ℚ
  atanF : ℚ → ℚ
  cpi : ℚ
  eps : ℚ

/-- The tensors `Assigner.forward` receives, for batch size `bs`, `na`
anchors, `nm` padded ground-truth slots and `nc` classes.  `gtLabels` holds
class indices (the source stores them as floats and applies `.long()` before
indexing `pd_scores`; an out-of-range label would raise there, so the index
type carries the bound). -/
structure AssignerArgs (bs na nm nc : ℕ) where
  pdScores : Fin bs → Fin na → Fin nc → ℚ
  pdBboxes : Fin bs → Fin na → Box
  ancPoints : Fin na → ℚ × ℚ
  gtLabels : Fin bs → Fin nm → Fin nc
  gtBboxes : Fin bs → Fin nm → Box
  maskGt : Fin bs → Fin nm → Bool

/-- First index attaining the maximum of `f` over a list of indices (the
head on an empty list cannot occur at the call sites). -/
def pickArgmax {n : ℕ} [NeZero n] (f : Fin n → ℚ) : List (Fin n) → Fin n
  | [] => ⟨0, Nat.pos_of_ne_zero (NeZero.ne n)⟩
  | i :: t => t.foldl (fun best j => if f best < f j then j else best) i

/-- `Tensor.argmax` along one dimension: the first index attaining the
maximum. -/
def argmaxFin {n : ℕ} [NeZero n] (f : Fin n → ℚ) : Fin n :=
  pickArgmax f (List.finRange n)

/-- `Tensor.amax` along one dimension: the maximal value (the value at the
first argmax). -/
def amaxFin {n : ℕ} [NeZero n] (f : Fin n → ℚ) : ℚ := f (argmaxFin f)

/-- `torch.topk(..., largest=True)`: greedily pick the index of the largest
remaining metric, `k` times (first index on ties). -/
def topkGo {n : ℕ} [NeZero n] (f : Fin n → ℚ) : ℕ → List (Fin n) → List (Fin n)
  | 0, _ => []
  | _ + 1, [] => []
  | k + 1, i :: t =>
    let b := pickArgmax f (i :: t)
    b :: topkGo f k ((i :: t).erase b)

/-- The `top_k` anchor indices of one ground truth, by decreasing alignment
metric. -/
def topkIdxs {n : ℕ} [NeZero n] (f : Fin n → ℚ) (k : ℕ) : List (Fin n) :=
  topkGo f k (List.finRange n)

/-- `mask_in_gts`: the anchor center lies strictly (margin `1e-9`) inside
the ground-truth box — `bbox_deltas.amin(3).gt_(1e-9)`. -/
def maskInGts {bs na nm nc : ℕ} (A : AssignerArgs bs na nm nc)
    (b : Fin bs) (g : Fin nm) (a : Fin na) : Bool :=
  let p := A.ancPoints a
  let bx := A.gtBboxes b g
  decide ((1 : ℚ) / 1000000000 <
    qmin (qmin (p.1 - bx.x1) (p.2 - bx.y1)) (qmin (bx.x2 - p.1) (bx.y2 - p.2)))

/-- `true_mask = (mask_in_gts * mask_gt).bool()`. -/
def trueMask {bs na nm nc : ℕ} (A : AssignerArgs bs na nm nc)
    (b : Fin bs) (g : Fin nm) (a : Fin na) : Bool :=
  maskInGts A b g a && A.maskGt b g

/-- `bbox_scores`: the predicted score of the ground truth's class at each
anchor inside the box, 0 elsewhere (`bbox_scores[true_mask] = ...`). -/
def bboxScores {bs na nm nc : ℕ} (A : AssignerArgs bs na nm nc)
    (b : Fin bs) (g : Fin nm) (a : Fin na) : ℚ :=
  if trueMask A b g a then A.pdScores b a (A.gtLabels b g) else 0

/-- `overlaps`: the clamped CIoU of the ground-truth box and the predicted
box where `true_mask` holds, 0 elsewhere
(`overlaps[true_mask] = compute_iou(gt, pd).clamp(0)`). -/
def overlapsA {bs na nm nc : ℕ} (cfg : AssignerCfg) (A : AssignerArgs bs na nm nc)
    (b : Fin bs) (g : Fin nm) (a : Fin na) : ℚ :=
  if trueMask A b g a then
    clamp0 (computeIou cfg.atanF cfg.cpi iouEps (A.gtBboxes b g) (A.pdBboxes b a))
  else 0

/-- `align_metric = bbox_scores.pow(alpha) * overlaps.pow(beta)`. -/
def alignMetric {bs na nm nc : ℕ} (cfg : AssignerCfg) (A : AssignerArgs bs na nm nc)
    (b : Fin bs) (g : Fin nm) (a : Fin na) : ℚ :=
  cfg.powA (bboxScores A b g a) * cfg.powB (overlapsA cfg A b g a)

/-- The top-k indices after `top_k_indices.masked_fill_(~top_k_mask, 0)`:
the whole row of an invalid (padded) ground truth is replaced by index 0. -/
def topkMasked {bs na nm nc : ℕ} [NeZero na] (cfg : AssignerCfg)
    (A : AssignerArgs bs na nm nc) (b : Fin bs) (g : Fin nm) : List (Fin na) :=
  if A.maskGt b g then topkIdxs (fun a => alignMetric cfg A b g a) cfg.topK
  else List.replicate cfg.topK ⟨0, Nat.pos_of_ne_zero (NeZero.ne na)⟩

/-- The scatter-add counter: how often anchor `a` occurs among the (masked)
top-k indices of ground truth `g`. -/
def countTopK {bs na nm nc : ℕ} [NeZero na] (cfg : AssignerCfg)
    (A : AssignerArgs bs na nm nc) (b : Fin bs) (g : Fin nm) (a : Fin na) : ℕ :=
  (topkMasked cfg A b g).count a

/-- `count.masked_fill_(count > 1, 0)` followed by the cast to the metric's
dtype: the `mask_top_k` entry. -/
def maskTopK {bs na nm nc : ℕ} [NeZero na] (cfg : AssignerCfg)
    (A : AssignerArgs bs na nm nc) (b : Fin bs) (g : Fin nm) (a : Fin na) : ℚ :=
  if 1 < countTopK cfg A b g a then 0 else (countTopK cfg A b g a : ℚ)

/-- `mask_pos = mask_top_k * mask_in_gts * mask_gt` (before the
multi-assignment resolution). -/
def maskPosPre {bs na nm nc : ℕ} [NeZero na] (cfg : AssignerCfg)
    (A : AssignerArgs bs na nm nc) (b : Fin bs) (g : Fin nm) (a : Fin na) : ℚ :=
  maskTopK cfg A b g a * (if maskInGts A b g a then 1 else 0) *
    (if A.maskGt b g then 1 else 0)

/-- `fg_mask = mask_pos.sum(-2)` before the resolution branch. -/
def fgSumPre {bs na nm nc : ℕ} [NeZero na] (cfg : AssignerCfg)
    (A : AssignerArgs bs na nm nc) (b : Fin bs) (a : Fin na) : ℚ :=
  ∑ g, maskPosPre cfg A b g a

/-- `max_overlaps_idx = overlaps.argmax(1)`. -/
def maxOverlapIdx {bs na nm nc : ℕ} [NeZero nm] (cfg : AssignerCfg)
    (A : AssignerArgs bs na nm nc) (b : Fin bs) (a : Fin na) : Fin nm :=
  argmaxFin (fun g => overlapsA cfg A b g a)

/-- `mask_pos` after the multi-assignment resolution
(`torch.where(mask_multi_gts, is_max_overlaps, mask_pos)`): an anchor
claimed by more than one ground truth keeps only the one-hot of the
maximum-overlap ground truth.  The source guards the whole rewrite with
`if fg_mask.max() > 1`, which is an optimization: when no anchor is
multiply claimed the rewrite is the identity, so the pointwise form below
is equivalent. -/
def maskPos {bs na nm nc : ℕ} [NeZero na] [NeZero nm] (cfg : AssignerCfg)
    (A : AssignerArgs bs na nm nc) (b : Fin bs) (g : Fin nm) (a : Fin na) : ℚ :=
  if 1 < fgSumPre cfg A b a then (if g = maxOverlapIdx cfg A b a then 1 else 0)
  else maskPosPre cfg A b g a

/-- The final `fg_mask = mask_pos.sum(-2)`. -/
def fgSum {bs na nm nc : ℕ} [NeZero na] [NeZero nm] (cfg : AssignerCfg)
    (A : AssignerArgs bs na nm nc) (b : Fin bs) (a : Fin na) : ℚ :=
  ∑ g, maskPos cfg A b g a

/-- The returned `fg_mask.bool()`. -/
def fgMaskBool {bs na nm nc : ℕ} [NeZero na] [NeZero nm] (cfg : AssignerCfg)
    (A : AssignerArgs bs na nm nc) (b : Fin bs) (a : Fin na) : Bool :=
  decide (fgSum cfg A b a ≠ 0)

/-- `target_gt_idx = mask_pos.argmax(-2)`. -/
def targetGtIdx {bs na nm nc : ℕ} [NeZero na] [NeZero nm] (cfg : AssignerCfg)
    (A : AssignerArgs bs na nm nc) (b : Fin bs) (a : Fin na) : Fin nm :=
  argmaxFin (fun g => maskPos cfg A b g a)

/-- `target_labels = gt_labels.long().flatten()[target_gt_idx + b * max_boxes]`:
the flat index `b * max_boxes + target_gt_idx` selects exactly the entry
`(b, target_gt_idx)` of the label tensor. -/
def targetLabels {bs na nm nc : ℕ} [NeZero na] [NeZero nm] (cfg : AssignerCfg)
    (A : AssignerArgs bs na nm nc) (b : Fin bs) (a : Fin na) : Fin nc :=
  A.gtLabels b (targetGtIdx cfg A b a)

/-- `target_bboxes = gt_bboxes.view(-1, 4)[target_idx]`: likewise the entry
`(b, target_gt_idx)` of the box tensor. -/
def targetBboxesA {bs na nm nc : ℕ} [NeZero na] [NeZero nm] (cfg : AssignerCfg)
    (A : AssignerArgs bs na nm nc) (b : Fin bs) (a : Fin na) : Box :=
  A.gtBboxes b (targetGtIdx cfg A b a)

/-- `target_scores.scatter_(2, target_labels.unsqueeze(-1), 1)`: the one-hot
class target.  (The preceding `target_labels.clamp(0)` of the source is not
in place and has no effect.) -/
def oneHotScores {bs na nm nc : ℕ} [NeZero na] [NeZero nm] (cfg : AssignerCfg)
    (A : AssignerArgs bs na nm nc) (b : Fin bs) (a : Fin na) (c : Fin nc) : ℚ :=
  if c = targetLabels cfg A b a then 1 else 0

/-- `torch.where(fg_scores_mask > 0, target_scores, 0)`: one-hot targets
only at foreground anchors. -/
def maskedScores {bs na nm nc : ℕ} [NeZero na] [NeZero nm] (cfg : AssignerCfg)
    (A : AssignerArgs bs na nm nc) (b : Fin bs) (a : Fin na) (c : Fin nc) : ℚ :=
  if 0 < fgSum cfg A b a then oneHotScores cfg A b a c else 0

/-- `align_metric *= mask_pos` (the final mask). -/
def alignTimesPos {bs na nm nc : ℕ} [NeZero na] [NeZero nm] (cfg : AssignerCfg)
    (A : AssignerArgs bs na nm nc) (b : Fin bs) (g : Fin nm) (a : Fin na) : ℚ :=
  alignMetric cfg A b g a * maskPos cfg A b g a

/-- `pos_align_metrics = align_metric.amax(axis=-1)`. -/
def posAlignMetrics {bs na nm nc : ℕ} [NeZero na] [NeZero nm] (cfg : AssignerCfg)
    (A : AssignerArgs bs na nm nc) (b : Fin bs) (g : Fin nm) : ℚ :=
  amaxFin (fun a => alignTimesPos cfg A b g a)

/-- `pos_overlaps = (overlaps * mask_pos).amax(axis=-1)`. -/
def posOverlaps {bs na nm nc : ℕ} [NeZero na] [NeZero nm] (cfg : AssignerCfg)
    (A : AssignerArgs bs na nm nc) (b : Fin bs) (g : Fin nm) : ℚ :=
  amaxFin (fun a => overlapsA cfg A b g a * maskPos cfg A b g a)

/-- `norm_align_metric = align_metric * pos_overlaps / (pos_align_metrics + eps)`. -/
def normAlignMetric {bs na nm nc : ℕ} [NeZero na] [NeZero nm] (cfg : AssignerCfg)
    (A : AssignerArgs bs na nm nc) (b : Fin bs) (g : Fin nm) (a : Fin na) : ℚ :=
  alignTimesPos cfg A b g a * posOverlaps cfg A b g /
    (posAlignMetrics cfg A b g + cfg.eps)

/-- The returned `target_scores = target_scores * norm_align_metric.amax(-2)`. -/
def targetScores {bs na nm nc : ℕ} [NeZero na] [NeZero nm] (cfg : AssignerCfg)
    (A : AssignerArgs bs na nm nc) (b : Fin bs) (a : Fin na) (c : Fin nc) : ℚ :=
  maskedScores cfg A b a c * amaxFin (fun g => normAlignMetric cfg A b g a)

/-- The five tensors of the `max_boxes == 0` early return of
`Assigner.forward`: the `bg_idx`-filled label map (shaped like
`pd_scores[..., 0]`), zero boxes, zero scores, and two zero maps. -/
structure AssignerZeroOut (bs na nm nc : ℕ) where
  labels : Fin bs → Fin na → ℚ
  bboxes : Fin bs → Fin na → Box
  scores : Fin bs → Fin na → Fin nc → ℚ
  fourth : Fin bs → Fin na → ℚ
  fifth : Fin bs → Fin na → ℚ

/-- The four tensors of the normal-path return of `Assigner.forward`:
`(target_bboxes, target_scores, fg_mask.bool(), target_gt_idx)`. -/
structure AssignerMainOut (bs na nm nc : ℕ) where
  tBboxes : Fin bs → Fin na → Box
  tScores : Fin bs → Fin na → Fin nc → ℚ
  fgMask : Fin bs → Fin na → Bool
  tGtIdx : Fin bs → Fin na → ℕ

/-- `Assigner.forward`: the `max_boxes == 0` early return (left) against the
normal path (right).  The Python function returns a 5-tuple on the left and
a 4-tuple on the right; the sum type records which tuple was produced. -/
def assignerForward (cfg : AssignerCfg) {bs na nm nc : ℕ} [NeZero na]
    (A : AssignerArgs bs na nm nc) :
    AssignerZeroOut bs na nm nc ⊕ AssignerMainOut bs na nm nc :=
  if h : nm = 0 then
    .inl ⟨fun _ _ => (nc : ℚ), fun _ _ => ⟨0, 0, 0, 0⟩, fun _ _ _ => 0,
          fun _ _ => 0, fun _ _ => 0⟩
  else
    letI : NeZero nm := ⟨h⟩
    .inr ⟨targetBboxesA cfg A, targetScores cfg A, fgMaskBool cfg A,
          fun b a => ((targetGtIdx cfg A b a : ℕ))⟩

/-- How many tensors the Python `return` statement of each branch hands to
the caller (5 for the zero-ground-truth branch, 4 for the normal branch). -/
def returnedValues {bs na nm nc : ℕ} :
    AssignerZeroOut bs na nm nc ⊕ AssignerMainOut bs na nm nc → ℕ :=
  Sum.elim (fun _ => 5) (fun _ => 4)

/-- The entry `(b, a)` of the FIRST returned tensor of the zero-ground-truth
branch — the tensor the caller would unpack into `target_bboxes`. -/
def zeroFirstAt {bs na nm nc : ℕ}
    (r : AssignerZeroOut bs na nm nc ⊕ AssignerMainOut bs na nm nc)
    (b : Fin bs) (a : Fin na) : Option ℚ :=
  match r with
  | .inl z => some (z.labels b a)
  | .inr _ => none

/-- Witness configuration: `top_k = 1`, identity powers, zero `atan` model,
`eps = 1e-9`. -/
def cfgW : AssignerCfg := ⟨1, fun q => q, fun q => q, fun _ => 0, 0, 1 / 1000000000⟩

/-- Concrete zero-ground-truth input (`max_boxes = 0`). -/
def argsZ : AssignerArgs 1 1 0 1 :=
  ⟨fun _ _ _ => 1 / 2, fun _ _ => ⟨0, 0, 2, 2⟩, fun _ => (1, 1),
   fun _ g => g.elim0, fun _ g => g.elim0, fun _ g => g.elim0⟩

/-- Concrete one-ground-truth input: two anchors, one inside the box. -/
def argsO : AssignerArgs 1 2 1 1 :=
  ⟨fun _ _ _ => 1 / 2, fun _ _ => ⟨0, 0, 2, 2⟩,
   fun a => if a = 0 then (1, 1) else (5, 5),
   fun _ _ => 0, fun _ _ => ⟨0, 0, 2, 2⟩, fun _ _ => true⟩

/- ------------------------------------------------------------------ -/
/- Theorems -/
/- ------------------------------------------------------------------ -/

/-- Commutativity of the elementwise minimum. -/
theorem qmin_comm (a b : ℚ) : qmin a b = qmin b a := by
  unfold qmin
  by_cases h1 : a ≤ b
  · by_cases h2 : b ≤ a
    · simp [h1, h2, le_antisymm h1 h2]
    · simp [h1, h2]
  · by_cases h2 : b ≤ a
    · simp [h1, h2]
    · exact absurd (le_total a b) (by simp [h1, h2])

/-- Commutativity of the elementwise maximum. -/
theorem qmax_comm (a b : ℚ) : qmax a b = qmax b a := by
  unfold qmax
  by_cases h1 : a ≤ b
  · by_cases h2 : b ≤ a
    · simp [h1, h2, le_antisymm h2 h1]
    · simp [h1, h2]
  · by_cases h2 : b ≤ a
    · simp [h1, h2]
    · exact absurd (le_total a b) (by simp [h1, h2])

/-- Round trip corner → center → corner is the identity (exact arithmetic). -/
theorem wh2xy_xy2wh (b : Box) : wh2xy (xy2wh b) = b := by
  cases b
  simp only [xy2wh, wh2xy, Box.mk.injEq]
  refine ⟨by ring, by ring, by ring, by ring⟩

/-- Round trip center → corner → center is the identity (exact arithmetic). -/
theorem xy2wh_wh2xy (b : Box) : xy2wh (wh2xy b) = b := by
  cases b
  simp only [xy2wh, wh2xy, Box.mk.injEq]
  refine ⟨by ring, by ring, by ring, by ring⟩

/-- C8: the center-form/corner-form conversions `xy2wh` and `wh2xy` are
mutually inverse in both directions, exactly, under exact rational
arithmetic; as Lean functions over a copied record they are pure by
construction, exactly as the source copies its input before writing. -/
theorem claim_C8_box_roundtrip (b : Box) :
    wh2xy (xy2wh b) = b ∧ xy2wh (wh2xy b) = b :=
  ⟨wh2xy_xy2wh b, xy2wh_wh2xy b⟩

/-- Witness for C8 at a concrete box. -/
theorem claim_C8_box_roundtrip_witness :
    wh2xy (xy2wh ⟨10, 10, 50, 50⟩) = ⟨10, 10, 50, 50⟩ ∧
      xy2wh (wh2xy ⟨10, 10, 50, 50⟩) = ⟨10, 10, 50, 50⟩ :=
  claim_C8_box_roundtrip ⟨10, 10, 50, 50⟩

/-- When the two boxes have equal width/height ratios (after the `eps`
correction of the heights), `compute_iou` does not depend on the model of
`torch.atan`: the `v` term vanishes.  This justifies evaluating the
counterexamples below with the zero function in place of `atan`. -/
theorem computeIou_atan_irrelevant (f g : ℚ → ℚ) (cpi eps : ℚ) (b1 b2 : Box)
    (h : (b2.x2 - b2.x1) / (b2.y2 - b2.y1 + eps) =
         (b1.x2 - b1.x1) / (b1.y2 - b1.y1 + eps)) :
    computeIou f cpi eps b1 b2 = computeIou g cpi eps b1 b2 := by
  simp only [computeIou, h, sub_self]

/-- C5 counterexample: `compute_iou` is the CIoU, not the plain IoU.  At the
disjoint pair `boxU`, `boxV` it is negative (hence neither 0 nor in [0,1]),
and at the identical pair `boxU`, `boxU` it is strictly below 1 because of
the epsilon terms.  On both pairs the aspect ratios agree, so by
`computeIou_atan_irrelevant` the value is the same for every model of
`torch.atan`; it is evaluated here with the zero function. -/
theorem claim_C5_counterexample :
    computeIou (fun _ => 0) (2 / 5) iouEps boxU boxV < 0 ∧
      computeIou (fun _ => 0) (2 / 5) iouEps boxU boxU ≠ 1 := by
  constructor
  · norm_num [computeIou, boxU, boxV, iouEps, clamp0, qmin, qmax]
  · norm_num [computeIou, boxU, iouEps, clamp0, qmin, qmax]

/-- C5 amended: of the claimed algebra only symmetry survives —
`compute_iou` is symmetric in its two box arguments, for every model of
`torch.atan` and of the constant `4/π²` and every epsilon. -/
theorem claim_C5_amended_symmetry (f : ℚ → ℚ) (cpi eps : ℚ) (b1 b2 : Box) :
    computeIou f cpi eps b1 b2 = computeIou f cpi eps b2 b1 := by
  simp only [computeIou]
  rw [qmin_comm b2.x2 b1.x2, qmin_comm b2.y2 b1.y2,
      qmax_comm b2.x1 b1.x1, qmax_comm b2.y1 b1.y1,
      qmax_comm b2.x2 b1.x2, qmax_comm b2.y2 b1.y2,
      qmin_comm b2.x1 b1.x1, qmin_comm b2.y1 b1.y1]
  ring_nf

/-- Adding the same offset to both arguments leaves the elementwise minimum
shifted by that offset. -/
theorem qmin_add_right (a b c : ℚ) : qmin (a + c) (b + c) = qmin a b + c := by
  unfold qmin
  by_cases h : a ≤ b <;> simp [h, add_le_add_iff_right]

/-- Adding the same offset to both arguments leaves the elementwise maximum
shifted by that offset. -/
theorem qmax_add_right (a b c : ℚ) : qmax (a + c) (b + c) = qmax a b + c := by
  unfold qmax
  by_cases h : a ≤ b <;> simp [h, add_le_add_iff_right]

/-- The plain IoU is invariant under a common translation of both boxes: this
is why the class-offset trick of `non_max_suppression` keeps the suppression
decisions within one class identical to unoffset suppression. -/
theorem boxIou_shift (b1 b2 : Box) (c : ℚ) :
    boxIou ⟨b1.x1 + c, b1.y1 + c, b1.x2 + c, b1.y2 + c⟩
           ⟨b2.x1 + c, b2.y1 + c, b2.x2 + c, b2.y2 + c⟩ = boxIou b1 b2 := by
  simp only [boxIou, qmin_add_right, qmax_add_right, add_sub_add_right_eq_sub]

/-- Boxes of detections of the same class receive the same offset, so their
offset IoU equals their plain IoU. -/
theorem boxIou_offset_eq (d1 d2 : Det) (h : d1.cls = d2.cls) :
    boxIou (offsetBox d1) (offsetBox d2) = boxIou d1.box d2.box := by
  unfold offsetBox
  rw [h]
  exact boxIou_shift d1.box d2.box (d2.cls * 7680)

/-- The greedy suppression keeps a subsequence of its candidate list. -/
theorem nmsGreedy_sublist (iouT : ℚ) (kept rest : List Det) :
    (nmsGreedy iouT kept rest).Sublist rest := by
  induction rest generalizing kept with
  | nil => simp [nmsGreedy]
  | cons d t ih =>
    rw [nmsGreedy]
    split
    · exact (ih (kept ++ [d])).cons₂ d
    · exact (ih kept).cons d

/-- Every detection kept by the greedy suppression has offset IoU at most the
threshold with every box of the incoming `kept` accumulator. -/
theorem nmsGreedy_le_kept (iouT : ℚ) (rest : List Det) : ∀ kept : List Det,
    ∀ d ∈ nmsGreedy iouT kept rest, ∀ k ∈ kept,
      boxIou (offsetBox k) (offsetBox d) ≤ iouT := by
  induction rest with
  | nil => intro kept d hd; simp [nmsGreedy] at hd
  | cons d0 t ih =>
    intro kept d hd k hk
    rw [nmsGreedy] at hd
    by_cases hall : kept.all (fun k => decide (boxIou (offsetBox k) (offsetBox d0) ≤ iouT))
    · rw [if_pos hall] at hd
      rcases List.mem_cons.mp hd with rfl | hd2
      · exact of_decide_eq_true (List.all_eq_true.mp hall k hk)
      · exact ih (kept ++ [d0]) d hd2 k (List.mem_append_left _ hk)
    · rw [if_neg hall] at hd
      exact ih kept d hd k hk

/-- Pairwise property of the greedy suppression: any two kept boxes have
offset IoU at most the threshold. -/
theorem nmsGreedy_pairwise (iouT : ℚ) (rest : List Det) : ∀ kept : List Det,
    (nmsGreedy iouT kept rest).Pairwise
      (fun a b => boxIou (offsetBox a) (offsetBox b) ≤ iouT) := by
  induction rest with
  | nil => intro kept; simp [nmsGreedy]
  | cons d0 t ih =>
    intro kept
    rw [nmsGreedy]
    split
    · refine List.Pairwise.cons ?_ (ih (kept ++ [d0]))
      intro b hb
      exact nmsGreedy_le_kept iouT t (kept ++ [d0]) b hb d0 (by simp)
    · exact ih kept

/-- C6 amended: within one image, no two kept detections of the same class
have IoU above the threshold, and the number of kept detections is at most
300 and at most the number of detection rows entering the suppression; the
bound by the number of confidence-passing candidates holds on the
single-class branch (`nc ≤ 1`), but not in general (see the counterexample:
multi-label expansion emits several rows per candidate). -/
theorem claim_C6_amended (confT iouT : ℚ) (nc : ℕ) (rows : List (List ℚ)) :
    ((nmsImage confT iouT nc rows).Pairwise
       (fun d1 d2 => d1.cls = d2.cls → boxIou d1.box d2.box ≤ iouT)) ∧
      (nmsImage confT iouT nc rows).length ≤ 300 ∧
      (nmsImage confT iouT nc rows).length ≤ (detsOf confT nc rows).length ∧
      (nc ≤ 1 →
        (nmsImage confT iouT nc rows).length ≤
          (rows.filter (xcPass confT nc)).length) := by
  refine ⟨?_, ?_, ?_, ?_⟩
  · have hp := nmsGreedy_pairwise iouT
      ((List.insertionSort confGe (detsOf confT nc rows)).take 30000) []
    have hp2 := hp.sublist (List.take_sublist 300 _)
    exact hp2.imp (fun hab hcls => by
      rename_i a b
      rwa [boxIou_offset_eq a b hcls] at hab)
  · exact List.length_take_le 300 _
  · calc (nmsImage confT iouT nc rows).length
        ≤ (nmsGreedy iouT []
            ((List.insertionSort confGe (detsOf confT nc rows)).take 30000)).length :=
          (List.take_sublist 300 _).length_le
      _ ≤ ((List.insertionSort confGe (detsOf confT nc rows)).take 30000).length :=
          (nmsGreedy_sublist iouT _ _).length_le
      _ ≤ (List.insertionSort confGe (detsOf confT nc rows)).length :=
          (List.take_sublist 30000 _).length_le
      _ = (detsOf confT nc rows).length := (List.perm_insertionSort confGe _).length_eq
  · intro hnc
    have hd : (detsOf confT nc rows).length ≤ (rows.filter (xcPass confT nc)).length := by
      unfold detsOf
      rw [if_neg (by omega)]
      calc ((rows.filter (xcPass confT nc)).map _
              |>.filter (fun d => decide (confT < d.conf))).length
          ≤ ((rows.filter (xcPass confT nc)).map
              (fun r => (⟨rowBox r, listMax (rowScores nc r),
                (listArgmax (rowScores nc r) : ℚ), rowMask nc r⟩ : Det))).length :=
            List.length_filter_le _ _
        _ = (rows.filter (xcPass confT nc)).length := List.length_map _ _
    calc (nmsImage confT iouT nc rows).length
        ≤ (detsOf confT nc rows).length := by
          calc (nmsImage confT iouT nc rows).length
              ≤ (nmsGreedy iouT []
                  ((List.insertionSort confGe (detsOf confT nc rows)).take 30000)).length :=
                (List.take_sublist 300 _).length_le
            _ ≤ ((List.insertionSort confGe (detsOf confT nc rows)).take 30000).length :=
                (nmsGreedy_sublist iouT _ _).length_le
            _ ≤ (List.insertionSort confGe (detsOf confT nc rows)).length :=
                (List.take_sublist 30000 _).length_le
            _ = (detsOf confT nc rows).length :=
                (List.perm_insertionSort confGe _).length_eq
      _ ≤ (rows.filter (xcPass confT nc)).length := hd

/-- Witness for the amended C6 at a concrete single-class input. -/
theorem claim_C6_amended_witness :
    (nmsImage (1 / 2) (1 / 2) 1 [nmsRow1]).length ≤
      ([nmsRow1].filter (xcPass (1 / 2) 1)).length :=
  (claim_C6_amended (1 / 2) (1 / 2) 1 [nmsRow1]).2.2.2 (by norm_num)

/-- C6 counterexample: with two classes, one candidate row passing the
confidence filter can produce two kept detections (one per class, pushed
apart by the class offset), so the kept count is NOT bounded by the number
of candidates that passed the confidence threshold. -/
theorem claim_C6_counterexample :
    (nmsImage (1 / 2) (1 / 2) 2 [nmsRow2]).length = 2 ∧
      ([nmsRow2].filter (xcPass (1 / 2) 2)).length = 1 ∧ ¬(2 ≤ 1) := by
  refine ⟨?_, ?_, by omega⟩
  · norm_num [nmsImage, detsOf, xcPass, rowScores, rowMask, rowBox, listMax,
      qmax, qmin, clamp0, wh2xy, nmsRow2, List.insertionSort, List.orderedInsert,
      nmsGreedy, offsetBox, boxIou, List.filter, List.range_succ, confGe,
      List.filterMap_cons, List.getElem?_cons_zero, List.getElem?_cons_succ,
      List.take_succ_cons, List.take_nil]
  · norm_num [xcPass, rowScores, listMax, qmax, nmsRow2, List.filter]

/-- Every detection row built by `detsOf` carries exactly the trailing
`d1 - (4 + nc)` mask channels of its source prediction row. -/
theorem detsOf_mask_len (confT : ℚ) (nc d1 : ℕ) (rows : List (List ℚ))
    (hrows : ∀ r ∈ rows, r.length = d1) :
    ∀ det ∈ detsOf confT nc rows, det.mask.length = d1 - (4 + nc) := by
  intro det hdet
  unfold detsOf at hdet
  by_cases h : 1 < nc
  · rw [if_pos h] at hdet
    rcases List.mem_flatMap.mp hdet with ⟨r, hr, hin⟩
    rcases List.mem_filterMap.mp hin with ⟨j, _, hj⟩
    have hrlen : r.length = d1 := hrows r (List.mem_of_mem_filter hr)
    by_cases hc : confT < (rowScores nc r).getD j 0
    · rw [if_pos hc] at hj
      cases hj
      simp [rowMask, List.length_drop, hrlen]
    · rw [if_neg hc] at hj
      cases hj
  · rw [if_neg h] at hdet
    rcases List.mem_map.mp (List.mem_of_mem_filter hdet) with ⟨r, hr, rfl⟩
    have hrlen : r.length = d1 := hrows r (List.mem_of_mem_filter hr)
    simp [rowMask, List.length_drop, hrlen]

/-- Mask-channel count of every kept detection of one image. -/
theorem nmsImage_mask_len (confT iouT : ℚ) (nc d1 : ℕ) (rows : List (List ℚ))
    (hrows : ∀ r ∈ rows, r.length = d1) :
    ∀ det ∈ nmsImage confT iouT nc rows, det.mask.length = d1 - (4 + nc) := by
  intro det hdet
  have h1 := (List.take_sublist 300 _).subset hdet
  have h2 := (nmsGreedy_sublist iouT [] _).subset h1
  have h3 := (List.take_sublist 30000 _).subset h2
  have h4 := (List.perm_insertionSort confGe _).subset h3
  exact detsOf_mask_len confT nc d1 rows hrows det h4

/-- Width of one output row. -/
theorem detRow_length (d : Det) : (detRow d).length = 6 + d.mask.length := by
  simp [detRow]
  omega

/-- C10: `non_max_suppression` returns one entry per batch image; every entry
— including the zero-row placeholders of candidate-less or time-budget
skipped images — has `6 + nm` columns, `nm = outputs.shape[1] - nc - 4`.
`processed` ranges over every possible prefix the wall-clock budget allows. -/
theorem claim_C10_output_shape (confT iouT : ℚ) (d1 nc : ℕ) :
    ∀ (batch : List (List (List ℚ))) (processed : ℕ),
      (∀ img ∈ batch, ∀ r ∈ img, r.length = d1) →
      (nonMaxSuppression confT iouT d1 nc processed batch).length = batch.length ∧
        ∀ e ∈ nonMaxSuppression confT iouT d1 nc processed batch,
          e.1 = 6 + nmCols d1 nc ∧ ∀ r ∈ e.2, r.length = 6 + nmCols d1 nc := by
  intro batch
  unfold nonMaxSuppression
  induction batch with
  | nil => intro p _; simp [nmsBatchGo]
  | cons img rest ih =>
    intro p hrows
    have hrest : ∀ i ∈ rest, ∀ r ∈ i, r.length = d1 :=
      fun i hi => hrows i (List.mem_cons_of_mem _ hi)
    have himg : ∀ r ∈ img, r.length = d1 := hrows img (List.mem_cons_self _ _)
    have hw : ∀ det ∈ nmsImage confT iouT (ncEffective d1 nc) img,
        (detRow det).length = 6 + nmCols d1 nc := by
      intro det hdet
      rw [detRow_length,
        nmsImage_mask_len confT iouT (ncEffective d1 nc) d1 img himg det hdet]
      unfold nmCols
      omega
    cases p with
    | zero =>
      rw [nmsBatchGo]
      refine ⟨by simp [(ih 0 hrest).1], ?_⟩
      intro e he
      rcases List.mem_cons.mp he with rfl | he2
      · exact ⟨rfl, by simp⟩
      · exact (ih 0 hrest).2 e he2
    | succ q =>
      rw [nmsBatchGo]
      refine ⟨by simp [(ih q hrest).1], ?_⟩
      intro e he
      rcases List.mem_cons.mp he with rfl | he2
      · refine ⟨rfl, ?_⟩
        intro r hrr
        rcases List.mem_map.mp hrr with ⟨det, hdet, rfl⟩
        exact hw det hdet
      · exact (ih q hrest).2 e he2

/-- Witness for C10 at a concrete one-image batch with `shape[1] = 6`,
`nc = 1` (hence one mask channel). -/
theorem claim_C10_output_shape_witness :
    (nonMaxSuppression (1 / 2) (1 / 2) 6 1 1 [[nmsRow1]]).length = [[nmsRow1]].length ∧
      ∀ e ∈ nonMaxSuppression (1 / 2) (1 / 2) 6 1 1 [[nmsRow1]],
        e.1 = 6 + nmCols 6 1 ∧ ∀ r ∈ e.2, r.length = 6 + nmCols 6 1 :=
  claim_C10_output_shape (1 / 2) (1 / 2) 6 1 [[nmsRow1]] 1
    (by intro img himg r hr; simp [nmsRow1] at himg; simp [himg] at hr; simp [hr, nmsRow1])

/-- `find?` on a similarity-sorted list returns a row whose similarity bounds
every other row satisfying the predicate. -/
theorem find_max_of_sorted (p : MRow → Bool) (l : List MRow)
    (hs : l.Pairwise simGe) (m : MRow) (hf : l.find? p = some m) :
    ∀ c ∈ l, p c = true → c.sim ≤ m.sim := by
  induction l with
  | nil => simp at hf
  | cons a t ih =>
    by_cases hpa : p a
    · rw [List.find?_cons_of_pos _ hpa] at hf
      cases hf
      intro c hc _
      rcases List.mem_cons.mp hc with rfl | hc2
      · exact le_refl _
      · exact (List.pairwise_cons.mp hs).1 c hc2
    · rw [List.find?_cons_of_neg _ hpa] at hf
      intro c hc hpc
      rcases List.mem_cons.mp hc with rfl | hc2
      · exact absurd hpc hpa
      · exact ih (List.pairwise_cons.mp hs).2 hf c hc2 hpc

/-- Every row kept by the key deduplication is the first row of the input
carrying its key. -/
theorem dedupByKey_mem (key : MRow → ℕ) (rows : List MRow) :
    ∀ m ∈ dedupByKey key rows, rows.find? (fun r => key r == key m) = some m := by
  intro m hm
  unfold dedupByKey at hm
  rcases List.mem_filterMap.mp hm with ⟨v, _, hf⟩
  have hb : (key m == v) = true := by simpa using List.find?_some hf
  have hk : key m = v := by simpa using hb
  rwa [hk]

/-- The key deduplication keeps only rows of its input. -/
theorem dedupByKey_subset (key : MRow → ℕ) (rows : List MRow) :
    ∀ m ∈ dedupByKey key rows, m ∈ rows :=
  fun m hm => List.mem_of_find?_eq_some (dedupByKey_mem key rows m hm)

/-- Rows surviving the key deduplication have pairwise distinct keys. -/
theorem dedupByKey_keys_pairwise (key : MRow → ℕ) (rows : List MRow) :
    (dedupByKey key rows).Pairwise (fun a b => key a ≠ key b) := by
  unfold dedupByKey
  have hnd : (((rows.map key).dedup).insertionSort (· ≤ ·)).Pairwise (· ≠ ·) :=
    ((List.perm_insertionSort _ _).nodup_iff).mpr (rows.map key).nodup_dedup
  refine (List.pairwise_filterMap).mpr (List.Pairwise.imp_of_mem ?_ hnd)
  intro v1 v2 _ _ hne x hx y hy
  have hfx : List.find? (fun r => key r == v1) rows = some x := Option.mem_def.mp hx
  have hfy : List.find? (fun r => key r == v2) rows = some y := Option.mem_def.mp hy
  have hbx : (key x == v1) = true := by simpa using List.find?_some hfx
  have hby : (key y == v2) = true := by simpa using List.find?_some hfy
  have hkx : key x = v1 := by simpa using hbx
  have hky : key y = v2 := by simpa using hby
  rw [hkx, hky]
  exact hne

/-- With at most one candidate, `compute_metric` skips the deduplication. -/
theorem acceptedMatches_small (target : List GtRow) (output : List Det) (thr : ℚ)
    (h : (matchCandidates target output thr).length ≤ 1) :
    acceptedMatches target output thr = matchCandidates target output thr := by
  simp only [acceptedMatches]
  rw [if_pos h]

/-- With at least two candidates, `compute_metric` sorts by similarity and
deduplicates the detection column, then the label column. -/
theorem acceptedMatches_big (target : List GtRow) (output : List Det) (thr : ℚ)
    (h : ¬(matchCandidates target output thr).length ≤ 1) :
    acceptedMatches target output thr =
      dedupByKey (fun r => r.gt) (dedupByKey (fun r => r.det)
        (List.insertionSort simGe (matchCandidates target output thr))) := by
  simp only [acceptedMatches]
  rw [if_neg h]

/-- C4 amended: at every threshold each ground-truth index and each
prediction index participates in at most one accepted match, every accepted
match is a candidate, and the accepted match of each surviving PREDICTION is
its highest-similarity candidate.  (The per-ground-truth analogue of the
last part is false — see the counterexample: the label-column deduplication
scans the detection-ascending reordering produced by the first
`numpy.unique`, not the similarity ordering.) -/
theorem claim_C4_amended (target : List GtRow) (output : List Det) (thr : ℚ) :
    ((acceptedMatches target output thr).Pairwise
       (fun m1 m2 => m1.gt ≠ m2.gt ∧ m1.det ≠ m2.det)) ∧
      ∀ m ∈ acceptedMatches target output thr,
        m ∈ matchCandidates target output thr ∧
          ∀ c ∈ matchCandidates target output thr, c.det = m.det → c.sim ≤ m.sim := by
  by_cases hlen : (matchCandidates target output thr).length ≤ 1
  · rw [acceptedMatches_small target output thr hlen]
    rcases hc : matchCandidates target output thr with _ | ⟨a, _ | ⟨b, t⟩⟩
    · simp
    · refine ⟨by simp, ?_⟩
      intro m hm
      have hm2 : m = a := List.mem_singleton.mp hm
      subst hm2
      refine ⟨by simp, ?_⟩
      intro c hcc _
      have hc2 : c = m := List.mem_singleton.mp hcc
      subst hc2
      exact le_refl _
    · rw [hc] at hlen
      simp at hlen
  · rw [acceptedMatches_big target output thr hlen]
    have hSsorted : (List.insertionSort simGe (matchCandidates target output thr)).Pairwise
        simGe := List.sorted_insertionSort simGe _
    have hSperm := List.perm_insertionSort simGe (matchCandidates target output thr)
    have hD1det := dedupByKey_keys_pairwise (fun r => r.det)
      (List.insertionSort simGe (matchCandidates target output thr))
    have hD2gt := dedupByKey_keys_pairwise (fun r => r.gt)
      (dedupByKey (fun r => r.det)
        (List.insertionSort simGe (matchCandidates target output thr)))
    have hD2subD1 := dedupByKey_subset (fun r => r.gt)
      (dedupByKey (fun r => r.det)
        (List.insertionSort simGe (matchCandidates target output thr)))
    have hD1subS := dedupByKey_subset (fun r => r.det)
      (List.insertionSort simGe (matchCandidates target output thr))
    constructor
    · refine List.Pairwise.imp_of_mem ?_ hD2gt
      intro a b ha hb hgt
      refine ⟨hgt, ?_⟩
      have hne : a ≠ b := fun he => hgt (by rw [he])
      exact List.Pairwise.forall (fun _ _ h => Ne.symm h) hD1det
        (hD2subD1 a ha) (hD2subD1 b hb) hne
    · intro m hm
      have hmD1 := hD2subD1 m hm
      have hmS := hD1subS m hmD1
      have hmC : m ∈ matchCandidates target output thr := hSperm.subset hmS
      refine ⟨hmC, ?_⟩
      intro c hcc hdet
      have hcS : c ∈ List.insertionSort simGe (matchCandidates target output thr) :=
        hSperm.symm.subset hcc
      have hfind := dedupByKey_mem (fun r => r.det)
        (List.insertionSort simGe (matchCandidates target output thr)) m hmD1
      refine find_max_of_sorted _ _ hSsorted m hfind c hcS ?_
      simp [hdet]

/-- C4 counterexample: ground truth 0 has candidates with detection 0
(IoU 600000000/1000000001 ≈ 0.6) and detection 1 (IoU 900000000/1000000001
≈ 0.9), but the accepted match for ground truth 0 is the LOWER-similarity
one: after the detection-column deduplication reorders rows by ascending
detection index, the label-column deduplication keeps the first row in that
order, not the highest-similarity row. -/
theorem claim_C4_counterexample :
    acceptedMatches exGt exDets (1 / 2) = [⟨0, 0, 600000000 / 1000000001⟩] ∧
      (⟨0, 1, 900000000 / 1000000001⟩ : MRow) ∈ matchCandidates exGt exDets (1 / 2) ∧
      (600000000 / 1000000001 : ℚ) < 900000000 / 1000000001 := by
  refine ⟨?_, ?_, by norm_num⟩
  · norm_num [acceptedMatches, matchCandidates, metricIou, exGt, exDets, qmin, qmax,
      clamp0, List.range_succ, dedupByKey, List.insertionSort, List.orderedInsert,
      simGe, List.dedup_cons_of_mem, List.dedup_cons_of_not_mem, List.dedup_nil,
      List.find?, List.filterMap_cons, List.getD, List.getElem?_cons_zero,
      List.getElem?_cons_succ]
  · norm_num [matchCandidates, metricIou, exGt, exDets, qmin, qmax, clamp0,
      List.range_succ, List.filterMap_cons, List.getD, List.getElem?_cons_zero,
      List.getElem?_cons_succ]

/-- Witness for the amended C4, applying it to the concrete two-detection
input: the accepted match is a candidate and bounds the similarity of every
candidate with its detection index. -/
theorem claim_C4_amended_witness :
    ((⟨0, 0, 600000000 / 1000000001⟩ : MRow) ∈ matchCandidates exGt exDets (1 / 2)) ∧
      (600000000 / 1000000001 : ℚ) ≤ 600000000 / 1000000001 := by
  have haccept : acceptedMatches exGt exDets (1 / 2) =
      [⟨0, 0, 600000000 / 1000000001⟩] := by
    norm_num [acceptedMatches, matchCandidates, metricIou, exGt, exDets, qmin, qmax,
      clamp0, List.range_succ, dedupByKey, List.insertionSort, List.orderedInsert,
      simGe, List.dedup_cons_of_mem, List.dedup_cons_of_not_mem, List.dedup_nil,
      List.find?, List.filterMap_cons, List.getD, List.getElem?_cons_zero,
      List.getElem?_cons_succ]
  have hmem : (⟨0, 0, 600000000 / 1000000001⟩ : MRow) ∈
      acceptedMatches exGt exDets (1 / 2) := by
    rw [haccept]; exact List.mem_singleton_self _
  have h := (claim_C4_amended exGt exDets (1 / 2)).2 ⟨0, 0, 600000000 / 1000000001⟩ hmem
  exact ⟨h.1, h.2 ⟨0, 0, 600000000 / 1000000001⟩ h.1 rfl⟩

set_option maxRecDepth 8000 in
set_option maxHeartbeats 4000000 in
/-- Evaluation of the `ap` matrix on the single perfect prediction set: one
image, one ground truth of class 0, one identical prediction at confidence
0.9, true positive at the 0.5 threshold. -/
theorem computeApMatrix_perfect_eval :
    computeApMatrix 1 [[true]] [9 / 10] [0] [0] (1 / 10000000000000000) =
      [[199 / 200]] := by
  norm_num [computeApMatrix, apRow, tpColumn, cumsum, cumsumGo, suffixMax, interpPts,
    trapz, linspace101, linspaceGo, qmax, List.insertionSort, List.orderedInsert,
    List.dedup_cons_of_mem, List.dedup_cons_of_not_mem, List.dedup_nil,
    List.count_cons, List.count_nil, List.range_succ, List.filter, List.getD,
    List.getElem?_cons_zero, List.getElem?_cons_succ]

/-- C3 counterexample: the single perfect prediction set does NOT get AP 1.0
from `compute_ap` — the value is 199/200. -/
theorem claim_C3_counterexample :
    computeApMatrix 1 [[true]] [9 / 10] [0] [0] (1 / 10000000000000000) ≠ [[1]] := by
  rw [computeApMatrix_perfect_eval]
  intro h
  simp only [List.cons.injEq, and_true] at h
  norm_num at h

/-- C3 amended: on that input `compute_ap` returns exactly `199/200 = 0.995`:
the appended sentinel pair (recall 1, precision 0) makes the final 0.01-wide
trapezoid average precision 1 and precision 0, losing 0.005 of area. -/
theorem claim_C3_amended :
    computeApMatrix 1 [[true]] [9 / 10] [0] [0] (1 / 10000000000000000) =
      [[199 / 200]] :=
  computeApMatrix_perfect_eval

/-- `Tensor.long()` agrees with the floor on nonnegative entries. -/
theorem toLong_eq_floor (q : ℚ) (h : 0 ≤ q) : toLong q = ⌊q⌋ := by
  rw [Rat.floor_def, toLong]
  exact Int.tdiv_eq_ediv (Rat.num_nonneg.mpr h) (Int.ofNat_nonneg q.den)

/-- C7: for targets in the valid (nonnegative) bin range, `df_loss` is the
per-edge average of `wl * CE(pred, floor t) + wr * CE(pred, floor t + 1)`
with `wl = floor t + 1 - t` and `wr = t - floor t`; and when every target is
exactly an integer the right-bin term vanishes and the loss is the per-edge
average of the cross-entropy against that single bin. -/
theorem claim_C7_df_loss (nb : ℕ) (ce : (Fin nb → ℚ) → ℤ → ℚ)
    (pred : Fin 4 → Fin nb → ℚ) (target : Fin 4 → ℚ) (h : ∀ e, 0 ≤ target e) :
    (dfLoss nb ce pred target =
      (∑ e : Fin 4,
        ((((⌊target e⌋ : ℚ) + 1 - target e) * ce (pred e) ⌊target e⌋ +
          (target e - (⌊target e⌋ : ℚ)) * ce (pred e) (⌊target e⌋ + 1)))) / 4) ∧
      ((∀ e, target e = ((⌊target e⌋ : ℚ))) →
        dfLoss nb ce pred target = (∑ e : Fin 4, ce (pred e) ⌊target e⌋) / 4) := by
  constructor
  · unfold dfLoss
    rw [Finset.sum_congr rfl (fun e _ => ?_)]
    rw [toLong_eq_floor (target e) (h e)]
    push_cast
    ring
  · intro hint
    unfold dfLoss
    rw [Finset.sum_congr rfl (fun e _ => ?_)]
    rw [toLong_eq_floor (target e) (h e), hint e]
    simp only [Int.floor_intCast]
    push_cast
    ring

/-- Witness for C7, applying the theorem at the target distances
`(3.3, 3, 0, 1)`. -/
theorem claim_C7_df_loss_witness :
    dfLoss 5 ceW predW tgtW =
      (∑ e : Fin 4,
        ((((⌊tgtW e⌋ : ℚ) + 1 - tgtW e) * ceW (predW e) ⌊tgtW e⌋ +
          (tgtW e - (⌊tgtW e⌋ : ℚ)) * ceW (predW e) (⌊tgtW e⌋ + 1)))) / 4 :=
  (claim_C7_df_loss 5 ceW predW tgtW (by
    intro e
    fin_cases e <;> norm_num [tgtW])).1

/-- The argmax fold never decreases the metric, and bounds every scanned
index. -/
theorem foldArgmax_spec {n : ℕ} (f : Fin n → ℚ) (l : List (Fin n)) :
    ∀ acc : Fin n,
      f acc ≤ f (l.foldl (fun best j => if f best < f j then j else best) acc) ∧
      ∀ j ∈ l, f j ≤ f (l.foldl (fun best j => if f best < f j then j else best) acc) := by
  induction l with
  | nil => intro acc; simp
  | cons x t ih =>
    intro acc
    simp only [List.foldl_cons]
    have hstep : f acc ≤ f (if f acc < f x then x else acc) ∧
        f x ≤ f (if f acc < f x then x else acc) := by
      by_cases hc : f acc < f x
      · simp [hc, le_of_lt hc]
      · simp [hc, le_of_not_lt hc]
    refine ⟨le_trans hstep.1 (ih _).1, ?_⟩
    intro j hj
    rcases List.mem_cons.mp hj with rfl | hj2
    · exact le_trans hstep.2 (ih _).1
    · exact (ih _).2 j hj2

/-- `pickArgmax` attains the maximum of the scanned indices. -/
theorem pickArgmax_le {n : ℕ} [NeZero n] (f : Fin n → ℚ) (l : List (Fin n)) :
    ∀ j ∈ l, f j ≤ f (pickArgmax f l) := by
  cases l with
  | nil => simp
  | cons i t =>
    intro j hj
    simp only [pickArgmax]
    rcases List.mem_cons.mp hj with rfl | hj2
    · exact (foldArgmax_spec f t j).1
    · exact (foldArgmax_spec f t i).2 j hj2

/-- `argmaxFin` attains the maximum over every index. -/
theorem argmaxFin_le {n : ℕ} [NeZero n] (f : Fin n → ℚ) (j : Fin n) :
    f j ≤ f (argmaxFin f) :=
  pickArgmax_le f (List.finRange n) j (List.mem_finRange j)

/-- `amaxFin` is nonnegative as soon as all entries are. -/
theorem amaxFin_nonneg {n : ℕ} [NeZero n] (f : Fin n → ℚ) (h : ∀ j, 0 ≤ f j) :
    0 ≤ amaxFin f := h _

/-- `clamp0` is nonnegative. -/
theorem clamp0_nonneg (q : ℚ) : 0 ≤ clamp0 q := by
  unfold clamp0 qmax
  by_cases h : q ≤ 0
  · simp [h]
  · simp [h, le_of_not_le h]

/-- The `mask_top_k` entries are 0 or 1. -/
theorem maskTopK_mem01 {bs na nm nc : ℕ} [NeZero na] (cfg : AssignerCfg)
    (A : AssignerArgs bs na nm nc) (b : Fin bs) (g : Fin nm) (a : Fin na) :
    maskTopK cfg A b g a = 0 ∨ maskTopK cfg A b g a = 1 := by
  unfold maskTopK
  by_cases hc : 1 < countTopK cfg A b g a
  · exact Or.inl (if_pos hc)
  · rw [if_neg hc]
    rcases Nat.le_one_iff_eq_zero_or_eq_one.mp (Nat.not_lt.mp hc) with h0 | h1
    · left; rw [h0]; norm_num
    · right; rw [h1]; norm_num

/-- The pre-resolution `mask_pos` entries are 0 or 1. -/
theorem maskPosPre_mem01 {bs na nm nc : ℕ} [NeZero na] (cfg : AssignerCfg)
    (A : AssignerArgs bs na nm nc) (b : Fin bs) (g : Fin nm) (a : Fin na) :
    maskPosPre cfg A b g a = 0 ∨ maskPosPre cfg A b g a = 1 := by
  rcases maskTopK_mem01 cfg A b g a with h | h <;>
    by_cases h1 : maskInGts A b g a <;> by_cases h2 : A.maskGt b g <;>
      simp [maskPosPre, h, h1, h2]

/-- The final `mask_pos` entries are 0 or 1. -/
theorem maskPos_mem01 {bs na nm nc : ℕ} [NeZero na] [NeZero nm] (cfg : AssignerCfg)
    (A : AssignerArgs bs na nm nc) (b : Fin bs) (g : Fin nm) (a : Fin na) :
    maskPos cfg A b g a = 0 ∨ maskPos cfg A b g a = 1 := by
  unfold maskPos
  by_cases hm : 1 < fgSumPre cfg A b a
  · rw [if_pos hm]
    by_cases hg : g = maxOverlapIdx cfg A b a
    · exact Or.inr (if_pos hg)
    · exact Or.inl (if_neg hg)
  · rw [if_neg hm]
    exact maskPosPre_mem01 cfg A b g a

/-- The final `mask_pos` entries are nonnegative. -/
theorem maskPos_nonneg {bs na nm nc : ℕ} [NeZero na] [NeZero nm] (cfg : AssignerCfg)
    (A : AssignerArgs bs na nm nc) (b : Fin bs) (g : Fin nm) (a : Fin na) :
    0 ≤ maskPos cfg A b g a := by
  rcases maskPos_mem01 cfg A b g a with h | h
  · rw [h]
  · rw [h]
    norm_num

/-- C2: in the returned assignment, every anchor is claimed by at most one
ground truth (the per-anchor `mask_pos` sum is at most 1); and at an anchor
initially claimed by more than one ground truth, the kept assignment is to a
ground truth of maximal stored overlap (the clamped CIoU of the predicted
box against each ground-truth box). -/
theorem claim_C2_single_assignment {bs na nm nc : ℕ} [NeZero na] [NeZero nm]
    (cfg : AssignerCfg) (A : AssignerArgs bs na nm nc) (_hk : cfg.topK ≤ na) :
    ∀ (b : Fin bs) (a : Fin na),
      (∑ g, maskPos cfg A b g a) ≤ 1 ∧
        (1 < fgSumPre cfg A b a →
          ∀ g, maskPos cfg A b g a = 1 →
            ∀ g2, overlapsA cfg A b g2 a ≤ overlapsA cfg A b g a) := by
  intro b a
  constructor
  · by_cases hmulti : 1 < fgSumPre cfg A b a
    · have hone : (∑ g, maskPos cfg A b g a) = 1 := by
        simp only [maskPos, hmulti, if_true]
        rw [Finset.sum_ite_eq' Finset.univ (maxOverlapIdx cfg A b a) (fun _ => (1 : ℚ))]
        simp
      rw [hone]
    · have heq : (∑ g, maskPos cfg A b g a) = fgSumPre cfg A b a := by
        unfold fgSumPre
        refine Finset.sum_congr rfl (fun g _ => ?_)
        simp [maskPos, hmulti]
      rw [heq]
      exact le_of_not_lt hmulti
  · intro hmulti g hg g2
    have hgi : g = maxOverlapIdx cfg A b a := by
      by_contra hne
      unfold maskPos at hg
      rw [if_pos hmulti, if_neg hne] at hg
      norm_num at hg
    subst hgi
    simpa [maxOverlapIdx] using argmaxFin_le (fun g => overlapsA cfg A b g a) g2

/-- Witness for C2 at the concrete one-ground-truth input. -/
theorem claim_C2_single_assignment_witness :
    (∑ g, maskPos cfgW argsO 0 g 0) ≤ 1 :=
  (claim_C2_single_assignment cfgW argsO (by norm_num [cfgW]) 0 0).1

/-- C9: with at least one ground truth, every entry of the returned
`target_scores` is nonnegative (for nonnegative incoming class scores —
they are sigmoid outputs at the call site — and any monotone-at-0 power
models), and the per-anchor class sum of `target_scores` is zero wherever
the returned foreground mask is false. -/
theorem claim_C9_target_scores {bs na nm nc : ℕ} [NeZero na] [NeZero nm]
    (cfg : AssignerCfg) (A : AssignerArgs bs na nm nc)
    (hs : ∀ b a c, 0 ≤ A.pdScores b a c)
    (hA : ∀ q, 0 ≤ q → 0 ≤ cfg.powA q)
    (hB : ∀ q, 0 ≤ q → 0 ≤ cfg.powB q)
    (he : 0 ≤ cfg.eps) :
    ∀ (b : Fin bs) (a : Fin na),
      (∀ c, 0 ≤ targetScores cfg A b a c) ∧
        (fgMaskBool cfg A b a = false → ∑ c, targetScores cfg A b a c = 0) := by
  intro b a
  have hbs : ∀ g a2, 0 ≤ bboxScores A b g a2 := by
    intro g a2
    unfold bboxScores
    split
    · exact hs b a2 _
    · exact le_refl 0
  have hov : ∀ g a2, 0 ≤ overlapsA cfg A b g a2 := by
    intro g a2
    unfold overlapsA
    split
    · exact clamp0_nonneg _
    · exact le_refl 0
  have hatp : ∀ g a2, 0 ≤ alignTimesPos cfg A b g a2 := fun g a2 =>
    mul_nonneg (mul_nonneg (hA _ (hbs g a2)) (hB _ (hov g a2)))
      (maskPos_nonneg cfg A b g a2)
  have hnorm : ∀ g, 0 ≤ normAlignMetric cfg A b g a := by
    intro g
    unfold normAlignMetric
    refine div_nonneg (mul_nonneg (hatp g a) ?_) (add_nonneg ?_ he)
    · exact amaxFin_nonneg _ (fun a2 => mul_nonneg (hov g a2) (maskPos_nonneg cfg A b g a2))
    · exact amaxFin_nonneg _ (fun a2 => hatp g a2)
  constructor
  · intro c
    unfold targetScores
    refine mul_nonneg ?_ (amaxFin_nonneg _ hnorm)
    unfold maskedScores
    split
    · unfold oneHotScores
      split
      · norm_num
      · exact le_refl 0
    · exact le_refl 0
  · intro hfalse
    have hz : fgSum cfg A b a = 0 := by
      unfold fgMaskBool at hfalse
      exact not_not.mp (of_decide_eq_false hfalse)
    have hall : ∀ c : Fin nc, targetScores cfg A b a c = 0 := by
      intro c
      unfold targetScores maskedScores
      rw [if_neg (by rw [hz]; exact lt_irrefl 0), zero_mul]
    simp [hall]

/-- Witness for C9 at the concrete one-ground-truth input with identity
power models. -/
theorem claim_C9_target_scores_witness :
    0 ≤ targetScores cfgW argsO 0 0 0 :=
  ((claim_C9_target_scores cfgW argsO
      (by intro b a c; norm_num [argsO])
      (fun _ h => h) (fun _ h => h)
      (by norm_num [cfgW]) 0 0).1) 0

/-- C1 (bug): the `max_boxes == 0` fast path of `Assigner.forward` returns a
5-tuple `(bg-label map, zero boxes, zero scores, zeros, zeros)` while the
normal path returns the 4-tuple
`(target_bboxes, target_scores, fg_mask, target_gt_idx)` that the only
caller (`ComputeLoss.__call__`) unpacks — so on a zero-ground-truth batch
the unpacking raises, and positionally the first returned tensor is the
background-class label map (every entry `bg_idx = num_classes`, here 1),
not a zero target-box tensor. -/
theorem claim_C1_zero_gt_return_bug :
    returnedValues (assignerForward cfgW argsZ) = 5 ∧
      returnedValues (assignerForward cfgW argsO) = 4 ∧
      zeroFirstAt (assignerForward cfgW argsZ) 0 0 = some 1 ∧ (5 : ℕ) ≠ 4 := by
  refine ⟨rfl, rfl, ?_, by omega⟩
  norm_num [assignerForward, zeroFirstAt]
